import Mathlib

/-!
Verification of the env-sync core: key-value codec, conflict
detector/resolver, sync orchestrator and change-detector guard logic,
shallowly embedded from the Go sources (internal/sync/conflict code,
internal/sync/manager.go, internal/watcher/file_watcher.go).

Go strings are modelled as lists of characters; Go maps from string to
string as association lists kept in strictly increasing key order (Go map
iteration is unordered and every serialization point in the source sorts
the keys, so the sorted association list is the canonical representative).
Collaborators excluded by the spec (SHA-256 content hash, the cipher, the
secret store, the filesystem and the interactive terminal) are parameters
of the embedded operations.
-/

namespace EnvSync

/-- Go strings, as lists of characters. -/
abbrev Str := List Char

/-- The double-quote character. -/
def dquote : Char := Char.ofNat 34

/-- The single-quote character. -/
def squote : Char := Char.ofNat 39

/-- Whitespace as trimmed by Go strings.TrimSpace, mirroring the full
unicode.IsSpace (White_Space) set: tab, newline, vertical tab, form feed,
carriage return, space, next-line (U+0085), no-break space (U+00A0), ogham
space mark (U+1680), the en-quad..hair-space block (U+2000-U+200A), line
and paragraph separators (U+2028, U+2029), narrow no-break space (U+202F),
medium mathematical space (U+205F) and ideographic space (U+3000). -/
def isSpaceChar (c : Char) : Bool :=
  c == '\t' || c == '\n' || c == Char.ofNat 11 || c == Char.ofNat 12 ||
  c == '\r' || c == ' ' || c == Char.ofNat 133 || c == Char.ofNat 160 ||
  c == Char.ofNat 5760 ||
  (decide (8192 ≤ c.toNat) && decide (c.toNat ≤ 8202)) ||
  c == Char.ofNat 8232 || c == Char.ofNat 8233 || c == Char.ofNat 8239 ||
  c == Char.ofNat 8287 || c == Char.ofNat 12288

/-- Left half of strings.TrimSpace. -/
def trimLeft (s : Str) : Str := s.dropWhile isSpaceChar

/-- Right half of strings.TrimSpace. -/
def trimRight (s : Str) : Str := (s.reverse.dropWhile isSpaceChar).reverse

/-- Embedding of strings.TrimSpace. -/
def trimSpace (s : Str) : Str := trimRight (trimLeft s)

/-- Embedding of strings.Split for a one-character separator. -/
def splitOnChar (sep : Char) : Str → List Str
  | [] => [[]]
  | c :: rest =>
    match splitOnChar sep rest with
    | [] => [[]]
    | l :: ls => if c = sep then [] :: l :: ls else (c :: l) :: ls

/-- Embedding of strings.SplitN(line, "=", 2): the text before the first
'=' and the text after it, or none when no '=' occurs (the len(parts) != 2
case in the source). -/
def splitEq : Str → Option (Str × Str)
  | [] => none
  | c :: rest =>
    if c = '=' then some ([], rest)
    else
      match splitEq rest with
      | none => none
      | some (k, v) => some (c :: k, v)

/-- Embedding of the quote-stripping step of parseEnvContent: remove one
layer of matching surrounding single or double quotes. -/
def stripQuotes (v : Str) : Str :=
  if 2 ≤ v.length ∧
      ((v.head? = some dquote ∧ v.getLast? = some dquote) ∨
       (v.head? = some squote ∧ v.getLast? = some squote)) then
    (v.drop 1).dropLast
  else v

/-- A Go map from string to string, canonically represented. -/
abbrev EnvMap := List (Str × Str)

/-- The keys of a map. -/
def envKeys (m : EnvMap) : List Str := m.map Prod.fst

/-- Well-formedness of the canonical representation: strictly increasing
keys (hence no duplicates). -/
def envWF (m : EnvMap) : Prop := List.Pairwise (fun a b : Str × Str => a.1 < b.1) m

/-- Decidability of the canonical-form invariant, used to evaluate it on
concrete maps. -/
instance (m : EnvMap) : Decidable (envWF m) := by
  unfold envWF
  infer_instance

/-- Go map read m[k], with the presence flag. -/
def envLookup (k : Str) : EnvMap → Option Str
  | [] => none
  | (k2, v) :: rest => if k = k2 then some v else envLookup k rest

/-- Go map write m[k] = v, keeping the canonical key order. -/
def envInsert (k v : Str) : EnvMap → EnvMap
  | [] => [(k, v)]
  | (k2, v2) :: rest =>
    if k < k2 then (k, v) :: (k2, v2) :: rest
    else if k = k2 then (k, v) :: rest
    else (k2, v2) :: envInsert k v rest

/-- A parse failure: the 1-based line number and the offending trimmed
line, mirroring the invalid-env-line error of the source. -/
abbrev ParseErr := Nat × Str

/-- The per-line loop of parseEnvContent; the first argument is the
0-based index of the current line. -/
def parseLinesAux : Nat → List Str → EnvMap → Except ParseErr EnvMap
  | _, [], env => .ok env
  | i, line :: rest, env =>
    let t := trimSpace line
    if t = [] ∨ t.head? = some '#' then parseLinesAux (i + 1) rest env
    else
      match splitEq t with
      | none => .error (i + 1, t)
      | some (k0, v0) =>
        parseLinesAux (i + 1) rest (envInsert (trimSpace k0) (stripQuotes (trimSpace v0)) env)

/-- Embedding of parseEnvContent. -/
def parseEnvContent (content : Str) : Except ParseErr EnvMap :=
  parseLinesAux 0 (splitOnChar '\n' content) []

/-- Does generateEnvContent wrap this value in double quotes? Mirrors
strings.ContainsAny(value, space tab newline return) or a contained '='. -/
def needsQuote (v : Str) : Bool :=
  v.any (fun c => c == ' ' || c == '\t' || c == '\n' || c == '\r') ||
  v.any (fun c => c == '=')

/-- The emitted form of a value. -/
def quoteValue (v : Str) : Str :=
  if needsQuote v then dquote :: (v ++ [dquote]) else v

/-- One KEY=VALUE output line. -/
def envLine (k v : Str) : Str := k ++ '=' :: quoteValue v

/-- Embedding of strings.Join(lines, newline). -/
def joinNl : List Str → Str
  | [] => []
  | [l] => l
  | l :: l2 :: ls => l ++ '\n' :: joinNl (l2 :: ls)

/-- Embedding of generateEnvContent: KEY=VALUE lines for the keys in
sorted order (sort.Strings in the source), joined with newlines, with a
trailing newline. -/
def generateEnvContent (m : EnvMap) : Str :=
  let keys := (envKeys m).insertionSort (· ≤ ·)
  joinNl (keys.map fun k => envLine k ((envLookup k m).getD [])) ++ ['\n']

/-- Embedding of findConflictingKeys: the keys present in both maps with
different values, sorted (the source walks the unordered local map and
then applies sort.Strings). -/
def findConflictingKeys (lm rm : EnvMap) : List Str :=
  ((lm.filter fun kv =>
      match envLookup kv.1 rm with
      | some rv => !(kv.2 == rv)
      | none => false).map Prod.fst).insertionSort (· ≤ ·)

/-- Embedding of ConflictInfo. Clock readings are abstract naturals. -/
structure ConflictInfo where
  localHash : Str
  remoteHash : Str
  conflictTime : Nat
  localChanges : EnvMap
  remoteChanges : EnvMap
  conflicts : List Str
deriving DecidableEq

/-- Embedding of ConflictResolver. The strategy is a Go string, as in the
source (unknown strategies reach the default error branch). -/
structure ConflictResolver where
  strategy : Str
  backupDir : Str
  interactiveMode : Bool

/-- Strategy constant "manual". -/
def ConflictStrategyManual : Str := "manual".toList

/-- Strategy constant "local". -/
def ConflictStrategyLocal : Str := "local".toList

/-- Strategy constant "remote". -/
def ConflictStrategyRemote : Str := "remote".toList

/-- Strategy constant "merge". -/
def ConflictStrategyMerge : Str := "merge".toList

/-- Strategy constant "backup". -/
def ConflictStrategyBackup : Str := "backup".toList

/-- Embedding of DetectConflict, parametrized by the content hash (SHA-256
in the source, an external collaborator here) and the current clock. -/
def DetectConflict (hash : Str → Str) (now : Nat)
    (localContent remoteContent lastKnownHash : Str) :
    Except ParseErr (Option ConflictInfo) :=
  if hash localContent = hash remoteContent then .ok none
  else if hash localContent = lastKnownHash then .ok none
  else if hash remoteContent = lastKnownHash then .ok none
  else
    match parseEnvContent localContent with
    | .error e => .error e
    | .ok localEnv =>
      match parseEnvContent remoteContent with
      | .error e => .error e
      | .ok remoteEnv =>
        .ok (some ⟨hash localContent, hash remoteContent, now, localEnv, remoteEnv,
                   findConflictingKeys localEnv remoteEnv⟩)

/-- Embedding of strings.ToLower. -/
def toLowerStr (s : Str) : Str := s.map Char.toLower

/-- Embedding of promptUserChoice: consume interactive input lines until
one answers l/r/e (an invalid answer retries on the next line); exhausted
input is the read error of the source. -/
def promptUserChoice : List Str → Except Str (Str × List Str)
  | [] => .error "failed to read input".toList
  | line :: rest =>
    let a := toLowerStr (trimSpace line)
    if a = "l".toList ∨ a = "local".toList then .ok ("local".toList, rest)
    else if a = "r".toList ∨ a = "remote".toList then .ok ("remote".toList, rest)
    else if a = "e".toList ∨ a = "edit".toList then .ok ("edit".toList, rest)
    else promptUserChoice rest

/-- Embedding of promptUserEdit: the next input line, trimmed. -/
def promptUserEdit : List Str → Except Str (Str × List Str)
  | [] => .error "failed to read input".toList
  | line :: rest => .ok (trimSpace line, rest)

/-- The merge of the non-conflicting keys from both sides: the two Go
range loops of resolveManually and resolveWithMerge, local entries first,
then remote entries (so a shared non-conflicting key takes the remote
value). -/
def mergeNonConflicting (ci : ConflictInfo) : EnvMap :=
  let m1 := ci.localChanges.foldl
    (fun acc kv => if ci.conflicts.contains kv.1 then acc else envInsert kv.1 kv.2 acc) []
  ci.remoteChanges.foldl
    (fun acc kv => if ci.conflicts.contains kv.1 then acc else envInsert kv.1 kv.2 acc) m1

/-- The per-key interactive loop of resolveManually. -/
def resolveKeysManually (ci : ConflictInfo) :
    List Str → EnvMap → List Str → Except Str (EnvMap × List Str)
  | [], merged, input => .ok (merged, input)
  | key :: ks, merged, input =>
    let localVal := (envLookup key ci.localChanges).getD []
    let remoteVal := (envLookup key ci.remoteChanges).getD []
    match promptUserChoice input with
    | .error e => .error e
    | .ok (choice, rest) =>
      if choice = "local".toList then
        resolveKeysManually ci ks (envInsert key localVal merged) rest
      else if choice = "remote".toList then
        resolveKeysManually ci ks (envInsert key remoteVal merged) rest
      else
        match promptUserEdit rest with
        | .error e => .error e
        | .ok (newVal, rest2) => resolveKeysManually ci ks (envInsert key newVal merged) rest2

/-- Embedding of resolveManually. -/
def resolveManually (cr : ConflictResolver) (ci : ConflictInfo) (input : List Str) :
    Except Str Str :=
  if !cr.interactiveMode then
    .error "conflict requires manual resolution but not in interactive mode".toList
  else
    match resolveKeysManually ci ci.conflicts (mergeNonConflicting ci) input with
    | .error e => .error e
    | .ok (merged, _) => .ok (generateEnvContent merged)

/-- The merge-marker block emitted for one conflicting key. -/
def conflictMarker (localVal remoteVal : Str) : Str :=
  "<<<<<<< LOCAL\n".toList ++ localVal ++ "\n=======\n".toList ++ remoteVal ++
  "\n>>>>>>> REMOTE".toList

/-- Embedding of resolveWithMerge. -/
def resolveWithMerge (ci : ConflictInfo) : Except Str Str :=
  let base := mergeNonConflicting ci
  let merged := ci.conflicts.foldl
    (fun acc key =>
      envInsert key
        (conflictMarker ((envLookup key ci.localChanges).getD [])
          ((envLookup key ci.remoteChanges).getD [])) acc) base
  .ok (generateEnvContent merged)

/-- Embedding of resolveWithBackupMerge: remote entries as the base, then
the local entries overlaid (local wins on every shared key). -/
def resolveWithBackupMerge (ci : ConflictInfo) : Except Str Str :=
  let base := ci.remoteChanges.foldl (fun acc kv => envInsert kv.1 kv.2 acc) []
  let merged := ci.localChanges.foldl (fun acc kv => envInsert kv.1 kv.2 acc) base
  .ok (generateEnvContent merged)

/-- Filesystem outcomes for the backup writes: whether MkdirAll succeeds
and which WriteFile calls succeed, by path. -/
structure FsOracle where
  mkdirOk : Bool
  writeOk : Str → Bool

/-- The all-success filesystem. -/
def FsOracle.allOk : FsOracle := ⟨true, fun _ => true⟩

/-- The backup directory after the empty-default substitution of
createBackup. -/
def backupDirOf (cr : ConflictResolver) : Str :=
  if cr.backupDir = [] then ".env-sync-backups".toList else cr.backupDir

/-- The timestamp text embedded in backup filenames (the source formats
the conflict time as 20060102-150405; the abstract clock is rendered in
decimal). -/
def timestampStr (t : Nat) : Str := (Nat.repr t).toList

/-- Embedding of createBackup: the error outcome together with the list of
attempted (path, content) writes, in order. -/
def createBackup (cr : ConflictResolver) (ci : ConflictInfo) (fs : FsOracle) :
    Except Str Unit × List (Str × Str) :=
  let dir := backupDirOf cr
  if !fs.mkdirOk then (.error "failed to create backup directory".toList, [])
  else
    let ts := timestampStr ci.conflictTime
    let localBackup := dir ++ "/local-".toList ++ ts ++ ".env".toList
    let localContent := generateEnvContent ci.localChanges
    if !fs.writeOk localBackup then
      (.error "failed to create local backup".toList, [(localBackup, localContent)])
    else
      let remoteBackup := dir ++ "/remote-".toList ++ ts ++ ".env".toList
      let remoteContent := generateEnvContent ci.remoteChanges
      if !fs.writeOk remoteBackup then
        (.error "failed to create remote backup".toList,
         [(localBackup, localContent), (remoteBackup, remoteContent)])
      else (.ok (), [(localBackup, localContent), (remoteBackup, remoteContent)])

/-- The observable outcome of ResolveConflict: the resolution result, the
attempted backup writes, and the warning surfaced when the backup failed. -/
structure ResolveResult where
  result : Except Str Str
  backupWrites : List (Str × Str)
  backupWarning : Option Str

/-- Embedding of ResolveConflict: create backups regardless of strategy (a
failure only produces a warning), then dispatch on the strategy; an
unknown strategy is the default error branch. -/
def ResolveConflict (cr : ConflictResolver) (ci : ConflictInfo) (input : List Str)
    (fs : FsOracle) : ResolveResult :=
  let b := createBackup cr ci fs
  let res : Except Str Str :=
    if cr.strategy = ConflictStrategyManual then resolveManually cr ci input
    else if cr.strategy = ConflictStrategyLocal then .ok (generateEnvContent ci.localChanges)
    else if cr.strategy = ConflictStrategyRemote then .ok (generateEnvContent ci.remoteChanges)
    else if cr.strategy = ConflictStrategyMerge then resolveWithMerge ci
    else if cr.strategy = ConflictStrategyBackup then resolveWithBackupMerge ci
    else .error ("unknown conflict strategy: ".toList ++ cr.strategy)
  ⟨res, b.2, match b.1 with | .error e => some e | .ok _ => none⟩

/-- Embedding of SyncState. -/
structure SyncState where
  lastSyncTime : Nat
  lastKnownHash : Str
  lastSyncBy : Str
  conflictCount : Nat
deriving DecidableEq

/-- The world a SyncManager operation touches: the local env file, the
remote secret (ciphertext) and the sync-state file. -/
structure World where
  localFile : Option Str
  vaultSecret : Option Str
  stateFile : Option SyncState
deriving DecidableEq

/-- External collaborators of the orchestrator: the content hash and the
cipher. -/
structure Collab where
  hash : Str → Str
  encrypt : Str → Str
  decrypt : Str → Except Str Str

/-- Identity collaborators, used to evaluate the model on concrete
worlds. -/
def idCollab : Collab := ⟨fun s => s, fun s => s, fun s => .ok s⟩

/-- The zero SyncState that loadState yields for a missing state file. -/
def emptyState : SyncState := ⟨0, [], [], 0⟩

/-- Embedding of performPush: encrypt the content and store it in the
vault. -/
def performPush (cb : Collab) (content : Str) (w : World) : World :=
  { w with vaultSecret := some (cb.encrypt content) }

/-- Embedding of SyncManager.Push. A missing vault secret takes the
first-push branch of the source, which returns straight from performPush.
saveOk is the outcome of the final saveState write: its failure is
non-fatal in the source (a warning, the old record kept, success still
returned), so a false saveOk leaves the state file unchanged. -/
def Push (cb : Collab) (cr : ConflictResolver) (input : List Str) (fs : FsOracle)
    (saveOk : Bool) (now : Nat) (w : World) : Except Str World :=
  match w.localFile with
  | none => .error "failed to read local file".toList
  | some localContent =>
    match w.vaultSecret with
    | none => .ok (performPush cb localContent w)
    | some remoteEncrypted =>
      match cb.decrypt remoteEncrypted with
      | .error _ => .error "failed to decrypt remote content".toList
      | .ok remoteContent =>
        match DetectConflict cb.hash now localContent remoteContent
            (w.stateFile.getD emptyState).lastKnownHash with
        | .error _ => .error "failed to detect conflicts".toList
        | .ok (some conflict) =>
          match (ResolveConflict cr conflict input fs).result with
          | .error _ => .error "failed to resolve conflict".toList
          | .ok resolved =>
            .ok { performPush cb resolved { w with localFile := some resolved } with
                  stateFile := if saveOk then
                      some ⟨now, cb.hash resolved, "push".toList,
                            (w.stateFile.getD emptyState).conflictCount + 1⟩
                    else w.stateFile }
        | .ok none =>
          .ok { performPush cb localContent w with
                stateFile := if saveOk then
                    some ⟨now, cb.hash localContent, "push".toList,
                          (w.stateFile.getD emptyState).conflictCount⟩
                  else w.stateFile }

/-- Embedding of SyncManager.Pull. An absent or empty local file adopts
the remote content without conflict detection, as in the source. saveOk is
the outcome of the final saveState write, non-fatal as in Push: a false
saveOk leaves the state file unchanged while Pull still succeeds. -/
def Pull (cb : Collab) (cr : ConflictResolver) (input : List Str) (fs : FsOracle)
    (saveOk : Bool) (now : Nat) (w : World) : Except Str World :=
  match w.vaultSecret with
  | none => .error "failed to get remote secret".toList
  | some remoteEncrypted =>
    match cb.decrypt remoteEncrypted with
    | .error _ => .error "failed to decrypt remote content".toList
    | .ok remoteContent =>
      if w.localFile.getD [] ≠ [] then
        match DetectConflict cb.hash now (w.localFile.getD []) remoteContent
            (w.stateFile.getD emptyState).lastKnownHash with
        | .error _ => .error "failed to detect conflicts".toList
        | .ok (some conflict) =>
          match (ResolveConflict cr conflict input fs).result with
          | .error _ => .error "failed to resolve conflict".toList
          | .ok resolved =>
            .ok { w with localFile := some resolved,
                         stateFile := if saveOk then
                             some ⟨now, cb.hash resolved, "pull".toList,
                                   (w.stateFile.getD emptyState).conflictCount + 1⟩
                           else w.stateFile }
        | .ok none =>
          .ok { w with localFile := some remoteContent,
                       stateFile := if saveOk then
                           some ⟨now, cb.hash remoteContent, "pull".toList,
                                 (w.stateFile.getD emptyState).conflictCount⟩
                         else w.stateFile }
      else
        .ok { w with localFile := some remoteContent,
                     stateFile := if saveOk then
                         some ⟨now, cb.hash remoteContent, "pull".toList,
                               (w.stateFile.getD emptyState).conflictCount⟩
                       else w.stateFile }

/-- Configuration of a FileWatcher instance. Durations are milliseconds. -/
structure WatcherConfig where
  filePath : Str
  debounceMs : Nat
  enablePush : Bool
  confirmPush : Bool

/-- The timing state of the watcher event loop: the last recorded pull
(refresh tick) time and the last accepted change time. -/
structure WatcherState where
  lastPullTimeMs : Nat
  lastChangeMs : Nat
deriving DecidableEq

/-- A filesystem notification: the path and the fsnotify operation bits
the loop inspects. -/
structure FsEvent where
  name : Str
  isWrite : Bool
  isCreate : Bool
  isRename : Bool
  isRemove : Bool

/-- filepath.Base for slash-separated paths without trailing separators. -/
def baseName (p : Str) : Str := (splitOnChar '/' p).getLastD []

/-- The guard window of the watcher loop: 3 * time.Second, in
milliseconds. -/
def guardWindowMs : Nat := 3000

/-- Embedding of one file-event iteration of FileWatcher.Start. nowMs is
the clock at the event, promptAnswer the reply promptUserForPush would
read. Returns the updated timing state and whether OnChangeFunc (the push
callback) was invoked; the watch re-registration on remove/create touches
no timing state and is not represented. -/
def handleEvent (cfg : WatcherConfig) (st : WatcherState) (nowMs : Nat) (ev : FsEvent)
    (promptAnswer : Bool) : WatcherState × Bool :=
  let isTargetFile := ev.name = cfg.filePath ∨ baseName ev.name = baseName cfg.filePath
  if cfg.enablePush ∧ isTargetFile then
    if ev.isWrite ∨ ev.isCreate ∨ ev.isRename then
      if nowMs - st.lastPullTimeMs < guardWindowMs then (st, false)
      else if cfg.debounceMs < nowMs - st.lastChangeMs then
        let shouldPush := if cfg.confirmPush then promptAnswer else true
        ({ st with lastChangeMs := nowMs }, shouldPush)
      else (st, false)
    else (st, false)
  else (st, false)

/-- Embedding of one refresh-tick iteration of the loop: record the tick
time (arming the guard window) before invoking the periodic pull. -/
def handleTick (st : WatcherState) (nowMs : Nat) : WatcherState :=
  { st with lastPullTimeMs := nowMs }

/-- Overlay written from the spec's words for the local-wins policy, for
comparison with the source behaviour: the remote mapping overlaid by the
local mapping. -/
def specLocalWinsOverlay (lm rm : EnvMap) : EnvMap :=
  lm.foldl (fun acc kv => envInsert kv.1 kv.2 acc)
    (rm.foldl (fun acc kv => envInsert kv.1 kv.2 acc) [])

/-- Decidable equality for Except values, used to evaluate the model on
concrete inputs. -/
instance {ε α : Type} [DecidableEq ε] [DecidableEq α] : DecidableEq (Except ε α) :=
  fun a b =>
    match a, b with
    | .ok x, .ok y =>
      if h : x = y then .isTrue (by rw [h]) else .isFalse (fun hh => h (Except.ok.inj hh))
    | .error x, .error y =>
      if h : x = y then .isTrue (by rw [h]) else .isFalse (fun hh => h (Except.error.inj hh))
    | .ok _, .error _ => .isFalse (fun hh => Except.noConfusion hh)
    | .error _, .ok _ => .isFalse (fun hh => Except.noConfusion hh)

/-- The convergence invariant of the sync-state record: the stored hash
equals the content hash of the local file and the content hash of the
plaintext of the remote blob. -/
def convergenceInv (cb : Collab) (w : World) : Prop :=
  ∃ f st c p, w.localFile = some f ∧ w.stateFile = some st ∧ w.vaultSecret = some c ∧
    cb.decrypt c = .ok p ∧ st.lastKnownHash = cb.hash f ∧ st.lastKnownHash = cb.hash p

/-- C5: DetectConflict returns none whenever the two contents hash
identically, whenever the local hash equals the last-known hash, or
whenever the remote hash equals the last-known hash. -/
theorem detect_none_identical_or_fastforward (hash : Str → Str) (now : Nat)
    (lc rc h : Str) (hcase : hash lc = hash rc ∨ hash lc = h ∨ hash rc = h) :
    DetectConflict hash now lc rc h = .ok none := by
  unfold DetectConflict
  rcases hcase with h1 | h1 | h1
  · rw [if_pos h1]
  · by_cases h0 : hash lc = hash rc
    · rw [if_pos h0]
    · rw [if_neg h0, if_pos h1]
  · by_cases h0 : hash lc = hash rc
    · rw [if_pos h0]
    · by_cases h2 : hash lc = h
      · rw [if_neg h0, if_pos h2]
      · rw [if_neg h0, if_neg h2, if_pos h1]

/-- Witness for C5: a concrete identical-content detection that returns
none. -/
theorem detect_none_identical_or_fastforward_witness :
    DetectConflict (fun s => s) 0 "x".toList "x".toList [] = .ok none :=
  detect_none_identical_or_fastforward (fun s => s) 0 "x".toList "x".toList [] (Or.inl rfl)

/-- C8: resolving under the manual policy with a non-interactive resolver
yields the distinct manual-resolution error and never reconciled text, for
every conflict descriptor, input and filesystem. -/
theorem manual_noninteractive_errors (dir : Str) (ci : ConflictInfo)
    (input : List Str) (fs : FsOracle) :
    (ResolveConflict ⟨ConflictStrategyManual, dir, false⟩ ci input fs).result =
      .error "conflict requires manual resolution but not in interactive mode".toList ∧
    ∀ s, (ResolveConflict ⟨ConflictStrategyManual, dir, false⟩ ci input fs).result ≠ .ok s := by
  refine ⟨rfl, ?_⟩
  intro s hcontra
  rw [show (ResolveConflict ⟨ConflictStrategyManual, dir, false⟩ ci input fs).result =
      .error "conflict requires manual resolution but not in interactive mode".toList from rfl]
    at hcontra
  exact Except.noConfusion hcontra

/-- C2 counterexample: under the local strategy, a conflict descriptor
with a key present only in the remote mapping resolves to the local
mapping alone, not to the remote mapping overlaid by the local mapping as
the claim states. -/
theorem localWins_drops_remote_only_keys :
    (ResolveConflict ⟨ConflictStrategyLocal, [], false⟩
        ⟨"lh".toList, "rh".toList, 0, [("A".toList, "1".toList)],
         [("A".toList, "2".toList), ("B".toList, "3".toList)], ["A".toList]⟩
        [] FsOracle.allOk).result = .ok "A=1\n".toList ∧
    generateEnvContent (specLocalWinsOverlay [("A".toList, "1".toList)]
        [("A".toList, "2".toList), ("B".toList, "3".toList)]) = "A=1\nB=3\n".toList ∧
    (ResolveConflict ⟨ConflictStrategyLocal, [], false⟩
        ⟨"lh".toList, "rh".toList, 0, [("A".toList, "1".toList)],
         [("A".toList, "2".toList), ("B".toList, "3".toList)], ["A".toList]⟩
        [] FsOracle.allOk).result ≠
      .ok (generateEnvContent (specLocalWinsOverlay [("A".toList, "1".toList)]
        [("A".toList, "2".toList), ("B".toList, "3".toList)])) := by
  refine ⟨by decide, by decide, by decide⟩

/-- C2 amended: resolving under the local-wins policy returns exactly the
serialization of the local mapping; keys present only in the remote
mapping are discarded. -/
theorem localWins_returns_local_only (dir : Str) (interactive : Bool)
    (ci : ConflictInfo) (input : List Str) (fs : FsOracle) :
    (ResolveConflict ⟨ConflictStrategyLocal, dir, interactive⟩ ci input fs).result =
      .ok (generateEnvContent ci.localChanges) := rfl

/-- C3 amended: when the vault reports no remote secret, Push encrypts and
stores the local snapshot directly — the world is unchanged except for the
vault secret; in particular no sync-state record is persisted. -/
theorem firstPush_stores_without_state (cb : Collab) (cr : ConflictResolver)
    (input : List Str) (fs : FsOracle) (saveOk : Bool) (now : Nat) (w : World) (lc : Str)
    (hl : w.localFile = some lc) (hv : w.vaultSecret = none) :
    Push cb cr input fs saveOk now w = .ok { w with vaultSecret := some (cb.encrypt lc) } := by
  unfold Push
  rw [hl, hv]
  simp [performPush, hl]

/-- Witness for C3 amended: the first-push equation evaluated on a
concrete world. -/
theorem firstPush_stores_without_state_witness :
    Push idCollab ⟨ConflictStrategyLocal, [], false⟩ [] FsOracle.allOk true 5
      ⟨some "A=1\n".toList, none, none⟩ =
      .ok ⟨some "A=1\n".toList, some "A=1\n".toList, none⟩ :=
  firstPush_stores_without_state idCollab ⟨ConflictStrategyLocal, [], false⟩ []
    FsOracle.allOk true 5 ⟨some "A=1\n".toList, none, none⟩ "A=1\n".toList rfl rfl

/-- C3 counterexample: a successful first push on a concrete world leaves
the sync-state record absent, refuting the claim that an updated
sync-state record is persisted for the first sync. -/
theorem firstPush_persists_no_state_record :
    Push idCollab ⟨ConflictStrategyLocal, [], false⟩ [] FsOracle.allOk true 5
      ⟨some "A=1\n".toList, none, none⟩ =
      .ok ⟨some "A=1\n".toList, some "A=1\n".toList, none⟩ ∧
    (⟨some "A=1\n".toList, some "A=1\n".toList, none⟩ : World).stateFile = none := by
  exact ⟨by decide, rfl⟩

/-- C9: a qualifying change event (push enabled, target file, write,
create or rename) observed within the guard window after the most recent
recorded refresh tick is discarded: the timing state is unchanged and the
push callback is not invoked. -/
theorem guard_window_suppresses_push (cfg : WatcherConfig) (st : WatcherState)
    (tickMs nowMs : Nat) (ev : FsEvent) (ans : Bool)
    (hen : cfg.enablePush = true)
    (htgt : ev.name = cfg.filePath ∨ baseName ev.name = baseName cfg.filePath)
    (hop : ev.isWrite = true ∨ ev.isCreate = true ∨ ev.isRename = true)
    (hguard : nowMs - tickMs < guardWindowMs) :
    handleEvent cfg (handleTick st tickMs) nowMs ev ans = (handleTick st tickMs, false) := by
  unfold handleEvent handleTick
  simp only [hen]
  rw [if_pos (by simpa using htgt)]
  rw [if_pos (by simpa using hop)]
  rw [if_pos (by simpa using hguard)]

/-- Witness for C9: a write on the watched file 1.5 seconds after a
refresh tick does not fire the push callback. -/
theorem guard_window_suppresses_push_witness :
    handleEvent ⟨"/x/.env".toList, 500, true, false⟩ (handleTick ⟨0, 0⟩ 1000) 2500
      ⟨"/x/.env".toList, true, false, false, false⟩ true = (handleTick ⟨0, 0⟩ 1000, false) :=
  guard_window_suppresses_push ⟨"/x/.env".toList, 500, true, false⟩ ⟨0, 0⟩ 1000 2500
    ⟨"/x/.env".toList, true, false, false, false⟩ true rfl (Or.inl rfl)
    (Or.inl rfl) (by decide)

/-- C10: for every strategy, ResolveConflict first attempts the two
timestamp-named backup writes (the serialized local and remote mappings,
in the backup directory); the resolution result never depends on the
filesystem outcome, and a backup failure is surfaced only as a warning. -/
theorem resolve_backs_up_and_backup_failure_nonfatal :
    (∀ (cr : ConflictResolver) (ci : ConflictInfo) (input : List Str),
      (ResolveConflict cr ci input FsOracle.allOk).backupWrites =
        [(backupDirOf cr ++ "/local-".toList ++ timestampStr ci.conflictTime ++ ".env".toList,
          generateEnvContent ci.localChanges),
         (backupDirOf cr ++ "/remote-".toList ++ timestampStr ci.conflictTime ++ ".env".toList,
          generateEnvContent ci.remoteChanges)]) ∧
    (∀ (cr : ConflictResolver) (ci : ConflictInfo) (input : List Str) (fs fs2 : FsOracle),
      (ResolveConflict cr ci input fs).result = (ResolveConflict cr ci input fs2).result) ∧
    (∀ (cr : ConflictResolver) (ci : ConflictInfo) (input : List Str) (fs : FsOracle) (e : Str),
      (createBackup cr ci fs).1 = .error e →
      (ResolveConflict cr ci input fs).backupWarning = some e) := by
  refine ⟨fun cr ci input => rfl, fun cr ci input fs fs2 => rfl, ?_⟩
  intro cr ci input fs e he
  show (match (createBackup cr ci fs).1 with
        | .error e => some e
        | .ok _ => none) = some e
  rw [he]

/-- Witness for C10: a filesystem whose directory creation fails makes the
backup error surface as a warning on a concrete resolution. -/
theorem resolve_backs_up_and_backup_failure_nonfatal_witness :
    (ResolveConflict ⟨ConflictStrategyLocal, [], false⟩
        ⟨[], [], 0, [], [], []⟩ [] ⟨false, fun _ => true⟩).backupWarning =
      some "failed to create backup directory".toList :=
  resolve_backs_up_and_backup_failure_nonfatal.2.2 ⟨ConflictStrategyLocal, [], false⟩
    ⟨[], [], 0, [], [], []⟩ [] ⟨false, fun _ => true⟩
    "failed to create backup directory".toList rfl

/-- C1 counterexample: a successful Pull that resolves a conflict under
the local strategy stores the hash of the resolved local text while the
remote blob still holds different plaintext, so the stored hash differs
from the content hash of the remote plaintext; and a successful Push whose
sync-state write fails (a warning in the source) keeps the stale stored
hash, which differs from the hash of both sides. -/
theorem pull_conflict_breaks_convergence :
    Pull idCollab ⟨ConflictStrategyLocal, "bk".toList, false⟩ [] FsOracle.allOk true 1
        ⟨some "A=2\n".toList, some "A=3\n".toList,
         some ⟨0, "A=1\n".toList, "push".toList, 0⟩⟩ =
      .ok ⟨some "A=2\n".toList, some "A=3\n".toList,
           some ⟨1, "A=2\n".toList, "pull".toList, 1⟩⟩ ∧
    idCollab.decrypt "A=3\n".toList = .ok "A=3\n".toList ∧
    ("A=2\n".toList : Str) ≠ idCollab.hash "A=3\n".toList ∧
    Push idCollab ⟨ConflictStrategyLocal, "bk".toList, false⟩ [] FsOracle.allOk false 9
        ⟨some "A=1\n".toList, some "A=1\n".toList,
         some ⟨0, "OLD".toList, "push".toList, 0⟩⟩ =
      .ok ⟨some "A=1\n".toList, some "A=1\n".toList,
           some ⟨0, "OLD".toList, "push".toList, 0⟩⟩ ∧
    ("OLD".toList : Str) ≠ idCollab.hash "A=1\n".toList :=
  ⟨by decide, by decide, by decide, by decide, by decide⟩

/-- C1 amended: after a successful Push that found a remote blob and whose
sync-state write succeeded, and after a successful Pull whose detect step
returned no conflict descriptor (or that found no non-empty local file)
and whose sync-state write succeeded, the stored hash equals the content
hash of the local file and of the remote plaintext. A first-path Push
persists no record, a conflicted Pull updates only the local side, and a
failed sync-state write (non-fatal in the source) keeps a stale record, so
those runs are excluded. -/
theorem pushPull_convergence_amended :
    (∀ (cb : Collab) (cr : ConflictResolver) (input : List Str) (fs : FsOracle)
        (now : Nat) (w w2 : World) (enc : Str),
      (∀ s, cb.decrypt (cb.encrypt s) = .ok s) →
      w.vaultSecret = some enc →
      Push cb cr input fs true now w = .ok w2 → convergenceInv cb w2) ∧
    (∀ (cb : Collab) (cr : ConflictResolver) (input : List Str) (fs : FsOracle)
        (now : Nat) (w w2 : World) (enc rc : Str),
      w.vaultSecret = some enc → cb.decrypt enc = .ok rc →
      (w.localFile.getD [] = [] ∨
        DetectConflict cb.hash now (w.localFile.getD []) rc
          (w.stateFile.getD emptyState).lastKnownHash = .ok none) →
      Pull cb cr input fs true now w = .ok w2 → convergenceInv cb w2) := by
  constructor
  · intro cb cr input fs now w w2 enc hrt hv hp
    obtain ⟨lf, vs, sf⟩ := w
    obtain rfl : vs = some enc := hv
    cases lf with
    | none => exact Except.noConfusion hp
    | some lc =>
      simp only [Push] at hp
      cases hd : cb.decrypt enc with
      | error e =>
        simp only [hd] at hp
        exact Except.noConfusion hp
      | ok rc =>
        simp only [hd] at hp
        cases hdet : DetectConflict cb.hash now lc rc
            ((sf.getD emptyState).lastKnownHash) with
        | error e =>
          simp only [hdet] at hp
          exact Except.noConfusion hp
        | ok copt =>
          simp only [hdet] at hp
          cases copt with
          | none =>
            obtain rfl := (Except.ok.inj hp).symm
            exact ⟨lc, ⟨now, cb.hash lc, "push".toList,
              (sf.getD emptyState).conflictCount⟩, cb.encrypt lc, lc,
              rfl, rfl, rfl, hrt lc, rfl, rfl⟩
          | some ci =>
            cases hres : (ResolveConflict cr ci input fs).result with
            | error e =>
              simp only [hres] at hp
              exact Except.noConfusion hp
            | ok resolved =>
              simp only [hres] at hp
              obtain rfl := (Except.ok.inj hp).symm
              exact ⟨resolved, ⟨now, cb.hash resolved, "push".toList,
                (sf.getD emptyState).conflictCount + 1⟩, cb.encrypt resolved,
                resolved, rfl, rfl, rfl, hrt resolved, rfl, rfl⟩
  · intro cb cr input fs now w w2 enc rc hv hd hnone hp
    obtain ⟨lf, vs, sf⟩ := w
    obtain rfl : vs = some enc := hv
    simp only [Pull] at hp
    simp only [hd] at hp
    by_cases hl : lf.getD [] = []
    · rw [if_neg (fun hcon => hcon hl)] at hp
      obtain rfl := (Except.ok.inj hp).symm
      exact ⟨rc, ⟨now, cb.hash rc, "pull".toList,
        (sf.getD emptyState).conflictCount⟩, enc, rc, rfl, rfl, rfl, hd, rfl, rfl⟩
    · rcases hnone with h0 | hdet
      · exact absurd h0 hl
      · rw [if_pos hl] at hp
        simp only [hdet] at hp
        obtain rfl := (Except.ok.inj hp).symm
        exact ⟨rc, ⟨now, cb.hash rc, "pull".toList,
          (sf.getD emptyState).conflictCount⟩, enc, rc, rfl, rfl, rfl, hd, rfl, rfl⟩

/-- Witness for C1 amended: the convergence invariant holds on the world a
concrete successful Push produces. -/
theorem pushPull_convergence_amended_witness :
    convergenceInv idCollab
      ⟨some "A=1\n".toList, some "A=1\n".toList,
       some ⟨3, "A=1\n".toList, "push".toList, 0⟩⟩ :=
  pushPull_convergence_amended.1 idCollab ⟨ConflictStrategyLocal, [], false⟩ []
    FsOracle.allOk 3 ⟨some "A=1\n".toList, some "A=1\n".toList, none⟩
    ⟨some "A=1\n".toList, some "A=1\n".toList, some ⟨3, "A=1\n".toList, "push".toList, 0⟩⟩
    "A=1\n".toList (fun s => rfl) rfl (by decide)

/-- C7 counterexample: after a Pull that resolved a conflict, a second
Pull with no intervening change overwrites the local file with the remote
content and changes the stored hash, so the second run is not a no-op. -/
theorem second_pull_after_conflict_changes_local :
    Pull idCollab ⟨ConflictStrategyLocal, "bk".toList, false⟩ [] FsOracle.allOk true 1
        ⟨some "A=2\n".toList, some "A=3\n".toList,
         some ⟨0, "A=1\n".toList, "push".toList, 0⟩⟩ =
      .ok ⟨some "A=2\n".toList, some "A=3\n".toList,
           some ⟨1, "A=2\n".toList, "pull".toList, 1⟩⟩ ∧
    Pull idCollab ⟨ConflictStrategyLocal, "bk".toList, false⟩ [] FsOracle.allOk true 2
        ⟨some "A=2\n".toList, some "A=3\n".toList,
         some ⟨1, "A=2\n".toList, "pull".toList, 1⟩⟩ =
      .ok ⟨some "A=3\n".toList, some "A=3\n".toList,
           some ⟨2, "A=3\n".toList, "pull".toList, 1⟩⟩ ∧
    (some "A=3\n".toList ≠ some "A=2\n".toList) ∧
    ("A=3\n".toList : Str) ≠ "A=2\n".toList := by decide

/-- C7 amended: from a converged world (local file, remote plaintext and
stored hash agree), running Push or Pull leaves the local file, the remote
plaintext and the stored hash (and conflict count) unchanged — whatever the
outcome of the sync-state write — and the detect call of that run returns
none via the identical-hash path. -/
theorem push_pull_idempotent_on_converged (cb : Collab) (cr : ConflictResolver)
    (input : List Str) (fs : FsOracle) (saveOk : Bool) (now : Nat) (w : World)
    (p c : Str) (st : SyncState)
    (hrt : ∀ s, cb.decrypt (cb.encrypt s) = .ok s)
    (hlc : w.localFile = some p) (hpne : p ≠ [])
    (hvs : w.vaultSecret = some c) (hdc : cb.decrypt c = .ok p)
    (hst : w.stateFile = some st) (hh : st.lastKnownHash = cb.hash p) :
    DetectConflict cb.hash now p p st.lastKnownHash = .ok none ∧
    (∃ w2, Push cb cr input fs saveOk now w = .ok w2 ∧ w2.localFile = w.localFile ∧
      (∃ c2, w2.vaultSecret = some c2 ∧ cb.decrypt c2 = .ok p) ∧
      (∃ st2, w2.stateFile = some st2 ∧ st2.lastKnownHash = st.lastKnownHash ∧
        st2.conflictCount = st.conflictCount)) ∧
    (∃ w3, Pull cb cr input fs saveOk now w = .ok w3 ∧ w3.localFile = w.localFile ∧
      w3.vaultSecret = w.vaultSecret ∧
      (∃ st3, w3.stateFile = some st3 ∧ st3.lastKnownHash = st.lastKnownHash ∧
        st3.conflictCount = st.conflictCount)) := by
  obtain ⟨lf, vs, sf⟩ := w
  obtain rfl : lf = some p := hlc
  obtain rfl : vs = some c := hvs
  obtain rfl : sf = some st := hst
  have hdet : DetectConflict cb.hash now p p st.lastKnownHash = .ok none := by
    unfold DetectConflict
    rw [if_pos rfl]
  refine ⟨hdet, ?_, ?_⟩
  · cases saveOk with
    | true =>
      have hpush : Push cb cr input fs true now ⟨some p, some c, some st⟩ =
          .ok ⟨some p, some (cb.encrypt p),
               some ⟨now, cb.hash p, "push".toList, st.conflictCount⟩⟩ := by
        simp only [Push, hdc, Option.getD_some, hdet]
        rfl
      exact ⟨_, hpush, rfl, ⟨cb.encrypt p, rfl, hrt p⟩,
        ⟨⟨now, cb.hash p, "push".toList, st.conflictCount⟩, rfl, hh.symm, rfl⟩⟩
    | false =>
      have hpush : Push cb cr input fs false now ⟨some p, some c, some st⟩ =
          .ok ⟨some p, some (cb.encrypt p), some st⟩ := by
        simp only [Push, hdc, Option.getD_some, hdet]
        rfl
      exact ⟨_, hpush, rfl, ⟨cb.encrypt p, rfl, hrt p⟩, ⟨st, rfl, rfl, rfl⟩⟩
  · cases saveOk with
    | true =>
      have hpull : Pull cb cr input fs true now ⟨some p, some c, some st⟩ =
          .ok ⟨some p, some c,
               some ⟨now, cb.hash p, "pull".toList, st.conflictCount⟩⟩ := by
        simp only [Pull, hdc, Option.getD_some]
        rw [if_pos hpne]
        simp only [hdet]
        rfl
      exact ⟨_, hpull, rfl, rfl,
        ⟨⟨now, cb.hash p, "pull".toList, st.conflictCount⟩, rfl, hh.symm, rfl⟩⟩
    | false =>
      have hpull : Pull cb cr input fs false now ⟨some p, some c, some st⟩ =
          .ok ⟨some p, some c, some st⟩ := by
        simp only [Pull, hdc, Option.getD_some]
        rw [if_pos hpne]
        simp only [hdet]
        rfl
      exact ⟨_, hpull, rfl, rfl, ⟨st, rfl, rfl, rfl⟩⟩

/-- Witness for C7 amended: the idempotence conclusion evaluated on a
concrete converged world. -/
theorem push_pull_idempotent_on_converged_witness :
    DetectConflict idCollab.hash 9 "A=1\n".toList "A=1\n".toList "A=1\n".toList = .ok none ∧
    (∃ w2, Push idCollab ⟨ConflictStrategyLocal, [], false⟩ [] FsOracle.allOk true 9
        ⟨some "A=1\n".toList, some "A=1\n".toList,
         some ⟨0, "A=1\n".toList, "push".toList, 0⟩⟩ = .ok w2 ∧
      w2.localFile = some "A=1\n".toList ∧
      (∃ c2, w2.vaultSecret = some c2 ∧ idCollab.decrypt c2 = .ok "A=1\n".toList) ∧
      (∃ st2, w2.stateFile = some st2 ∧ st2.lastKnownHash = "A=1\n".toList ∧
        st2.conflictCount = 0)) ∧
    (∃ w3, Pull idCollab ⟨ConflictStrategyLocal, [], false⟩ [] FsOracle.allOk true 9
        ⟨some "A=1\n".toList, some "A=1\n".toList,
         some ⟨0, "A=1\n".toList, "push".toList, 0⟩⟩ = .ok w3 ∧
      w3.localFile = some "A=1\n".toList ∧
      w3.vaultSecret = some "A=1\n".toList ∧
      (∃ st3, w3.stateFile = some st3 ∧ st3.lastKnownHash = "A=1\n".toList ∧
        st3.conflictCount = 0)) :=
  push_pull_idempotent_on_converged idCollab ⟨ConflictStrategyLocal, [], false⟩ []
    FsOracle.allOk true 9 ⟨some "A=1\n".toList, some "A=1\n".toList,
      some ⟨0, "A=1\n".toList, "push".toList, 0⟩⟩ "A=1\n".toList "A=1\n".toList
    ⟨0, "A=1\n".toList, "push".toList, 0⟩ (fun s => rfl) rfl (by decide) rfl rfl rfl rfl

theorem mem_envInsert {x : Str × Str} {k v : Str} :
    ∀ {m : EnvMap}, x ∈ envInsert k v m → x = (k, v) ∨ x ∈ m
  | [], h => by simpa [envInsert] using h
  | (k2, v2) :: rest, h => by
    simp only [envInsert] at h
    split_ifs at h with h1 h2
    · rcases List.mem_cons.mp h with h3 | h3
      · exact Or.inl h3
      · exact Or.inr h3
    · rcases List.mem_cons.mp h with h3 | h3
      · exact Or.inl h3
      · exact Or.inr (List.mem_cons_of_mem _ h3)
    · rcases List.mem_cons.mp h with h3 | h3
      · exact Or.inr (h3 ▸ List.mem_cons_self _ _)
      · rcases mem_envInsert h3 with h4 | h4
        · exact Or.inl h4
        · exact Or.inr (List.mem_cons_of_mem _ h4)

theorem envWF_insert {k v : Str} : ∀ {m : EnvMap}, envWF m → envWF (envInsert k v m)
  | [], _ => by simp [envWF, envInsert]
  | (k2, v2) :: rest, h => by
    obtain ⟨hhead, hrest⟩ := List.pairwise_cons.mp h
    simp only [envInsert]
    split_ifs with h1 h2
    · refine List.pairwise_cons.mpr ⟨?_, h⟩
      intro y hy
      rcases List.mem_cons.mp hy with h3 | h3
      · rw [h3]
        exact h1
      · exact lt_trans h1 (hhead y h3)
    · refine List.pairwise_cons.mpr ⟨?_, hrest⟩
      intro y hy
      exact h2 ▸ hhead y hy
    · have hk2 : k2 < k :=
        lt_of_le_of_ne (not_lt.mp h1) (fun he => h2 he.symm)
      refine List.pairwise_cons.mpr ⟨?_, envWF_insert hrest⟩
      intro y hy
      rcases mem_envInsert hy with h3 | h3
      · rw [h3]
        exact hk2
      · exact hhead y h3

theorem envLookup_iff_mem {k v : Str} :
    ∀ {m : EnvMap}, envWF m → (envLookup k m = some v ↔ (k, v) ∈ m)
  | [], _ => by simp [envLookup]
  | (k2, v2) :: rest, h => by
    obtain ⟨hhead, hrest⟩ := List.pairwise_cons.mp h
    simp only [envLookup]
    by_cases he : k = k2
    · subst he
      rw [if_pos rfl, List.mem_cons]
      constructor
      · intro h1
        obtain rfl := Option.some.inj h1
        exact Or.inl rfl
      · rintro (h1 | h1)
        · injection h1 with h2 h3
          rw [h3]
        · exact absurd (hhead (k, v) h1) (lt_irrefl k)
    · rw [if_neg he, envLookup_iff_mem hrest, List.mem_cons]
      constructor
      · exact fun h1 => Or.inr h1
      · rintro (h1 | h1)
        · injection h1 with h2 h3
          exact absurd h2 he
        · exact h1

theorem mem_findConflictingKeys {a : Str} {lm rm : EnvMap} (hwf : envWF lm) :
    a ∈ findConflictingKeys lm rm ↔
      ∃ lv rv, envLookup a lm = some lv ∧ envLookup a rm = some rv ∧ lv ≠ rv := by
  unfold findConflictingKeys
  rw [List.Perm.mem_iff (List.perm_insertionSort _ _), List.mem_map]
  constructor
  · rintro ⟨kv, hkv, rfl⟩
    rw [List.mem_filter] at hkv
    obtain ⟨hmem, hpred⟩ := hkv
    cases hr : envLookup kv.1 rm with
    | none =>
      simp only [hr] at hpred
      exact Bool.noConfusion hpred
    | some rv =>
      simp only [hr] at hpred
      refine ⟨kv.2, rv, (envLookup_iff_mem hwf).mpr hmem, rfl, ?_⟩
      simpa using hpred
  · rintro ⟨lv, rv, hl, hr, hne⟩
    refine ⟨(a, lv), ?_, rfl⟩
    rw [List.mem_filter]
    refine ⟨(envLookup_iff_mem hwf).mp hl, ?_⟩
    show (match envLookup a rm with
          | some rv => !(lv == rv)
          | none => false) = true
    simp only [hr]
    simpa using hne

theorem parseLinesAux_WF : ∀ (ls : List Str) (i : Nat) (env m : EnvMap),
    envWF env → parseLinesAux i ls env = .ok m → envWF m
  | [], i, env, m, hwf, h => by
    simp only [parseLinesAux] at h
    obtain rfl := Except.ok.inj h
    exact hwf
  | line :: rest, i, env, m, hwf, h => by
    simp only [parseLinesAux] at h
    split_ifs at h with h1
    · exact parseLinesAux_WF rest (i + 1) env m hwf h
    · cases hsp : splitEq (trimSpace line) with
      | none =>
        simp only [hsp] at h
        exact Except.noConfusion h
      | some kv =>
        obtain ⟨k0, v0⟩ := kv
        simp only [hsp] at h
        exact parseLinesAux_WF rest (i + 1) _ m (envWF_insert hwf) h

theorem parseEnvContent_WF {c : Str} {m : EnvMap} (h : parseEnvContent c = .ok m) :
    envWF m :=
  parseLinesAux_WF _ 0 [] m List.Pairwise.nil h

theorem DetectConflict_ok_some {hash : Str → Str} {now : Nat} {lc rc h : Str}
    {ci : ConflictInfo} (hd : DetectConflict hash now lc rc h = .ok (some ci)) :
    parseEnvContent lc = .ok ci.localChanges ∧ parseEnvContent rc = .ok ci.remoteChanges ∧
    ci.conflicts = findConflictingKeys ci.localChanges ci.remoteChanges := by
  unfold DetectConflict at hd
  split_ifs at hd with h1 h2 h3
  · exact Option.noConfusion (Except.ok.inj hd)
  · exact Option.noConfusion (Except.ok.inj hd)
  · exact Option.noConfusion (Except.ok.inj hd)
  · cases hl : parseEnvContent lc with
    | error e =>
      simp only [hl] at hd
      exact Except.noConfusion hd
    | ok le =>
      simp only [hl] at hd
      cases hr : parseEnvContent rc with
      | error e =>
        simp only [hr] at hd
        exact Except.noConfusion hd
      | ok re =>
        simp only [hr] at hd
        obtain h5 := Option.some.inj (Except.ok.inj hd)
        subst h5
        exact ⟨rfl, rfl, rfl⟩

/-- C6: for every conflict descriptor produced by DetectConflict, a key is
in the conflicting-key set exactly when it is present in both the parsed
local mapping and the parsed remote mapping with unequal values. -/
theorem detect_conflicts_iff_both_present_unequal (hash : Str → Str) (now : Nat)
    (lc rc h : Str) (ci : ConflictInfo)
    (hd : DetectConflict hash now lc rc h = .ok (some ci)) (k : Str) :
    k ∈ ci.conflicts ↔
      ∃ lv rv, envLookup k ci.localChanges = some lv ∧
        envLookup k ci.remoteChanges = some rv ∧ lv ≠ rv := by
  obtain ⟨hl, hr, hc⟩ := DetectConflict_ok_some hd
  rw [hc]
  exact mem_findConflictingKeys (parseEnvContent_WF hl)

/-- Witness for C6: the characterization evaluated on a concretely
detected conflict. -/
theorem detect_conflicts_iff_both_present_unequal_witness :
    "A".toList ∈ (⟨"A=1\n".toList, "A=2\n".toList, 7, [("A".toList, "1".toList)],
        [("A".toList, "2".toList)], ["A".toList]⟩ : ConflictInfo).conflicts ↔
      ∃ lv rv, envLookup "A".toList [("A".toList, "1".toList)] = some lv ∧
        envLookup "A".toList [("A".toList, "2".toList)] = some rv ∧ lv ≠ rv :=
  detect_conflicts_iff_both_present_unequal (fun s => s) 7 "A=1\n".toList "A=2\n".toList
    "zz".toList ⟨"A=1\n".toList, "A=2\n".toList, 7, [("A".toList, "1".toList)],
      [("A".toList, "2".toList)], ["A".toList]⟩ (by decide) "A".toList

/-- Validity of a key for the codec round trip: non-empty, no whitespace
characters, no '=', and not starting with '#'. Such a key survives line
trimming, the first-'=' split, key trimming and the comment check. -/
def validKeyB (k : Str) : Bool :=
  !k.isEmpty && k.all (fun c => !isSpaceChar c && !(c == '=')) && !(k.head? == some '#')

/-- Validity of a value for the codec round trip: no newline, and either
the value is quoted on output (it contains one of the quote-forcing
characters or '='), or it is emitted bare, in which case its ends must not
be trimmable whitespace and it must not itself look like a quoted
literal. -/
def validValueB (v : Str) : Bool :=
  !v.contains '\n' &&
  (needsQuote v ||
    (v.head?.all (fun c => !isSpaceChar c) && v.getLast?.all (fun c => !isSpaceChar c) &&
     !(decide (2 ≤ v.length ∧
        ((v.head? = some dquote ∧ v.getLast? = some dquote) ∨
         (v.head? = some squote ∧ v.getLast? = some squote))))))

theorem validKey_parts {k : Str} (hk : validKeyB k = true) :
    k ≠ [] ∧ (∀ c ∈ k, isSpaceChar c = false ∧ (c == '=') = false) ∧
      k.head? ≠ some '#' := by
  simp only [validKeyB, Bool.and_eq_true, List.all_eq_true] at hk
  obtain ⟨⟨h1, h2⟩, h3⟩ := hk
  refine ⟨?_, ?_, by simpa using h3⟩
  · intro hcon
    rw [hcon] at h1
    exact Bool.noConfusion h1
  · intro c hc
    have := h2 c hc
    simp only [Bool.and_eq_true, Bool.not_eq_true'] at this
    exact this

theorem validValue_no_nl {v : Str} (hv : validValueB v = true) : '\n' ∉ v := by
  simp only [validValueB, Bool.and_eq_true] at hv
  have h1 := hv.1
  simpa using h1

theorem validValue_bare {v : Str} (hv : validValueB v = true) (hq : needsQuote v = false) :
    (∀ c, v.head? = some c → isSpaceChar c = false) ∧
    (∀ c, v.getLast? = some c → isSpaceChar c = false) ∧
    ¬(2 ≤ v.length ∧
       ((v.head? = some dquote ∧ v.getLast? = some dquote) ∨
        (v.head? = some squote ∧ v.getLast? = some squote))) := by
  simp only [validValueB, hq, Bool.false_or, Bool.and_eq_true] at hv
  obtain ⟨_, ⟨ha, hb⟩, hc⟩ := hv
  have hc2 : decide (2 ≤ v.length ∧
      ((v.head? = some dquote ∧ v.getLast? = some dquote) ∨
       (v.head? = some squote ∧ v.getLast? = some squote))) = false := by
    cases hd : decide (2 ≤ v.length ∧
        ((v.head? = some dquote ∧ v.getLast? = some dquote) ∨
         (v.head? = some squote ∧ v.getLast? = some squote))) with
    | false => rfl
    | true => rw [hd] at hc; exact Bool.noConfusion hc
  refine ⟨?_, ?_, of_decide_eq_false hc2⟩
  · intro c hcp
    rw [hcp] at ha
    simpa using ha
  · intro c hcp
    rw [hcp] at hb
    simpa using hb

theorem dropWhile_space_eq_self (s : Str)
    (h : ∀ c, s.head? = some c → isSpaceChar c = false) :
    s.dropWhile isSpaceChar = s := by
  cases s with
  | nil => rfl
  | cons c rest => simp [List.dropWhile_cons, h c rfl]

theorem trimSpace_eq_self (s : Str)
    (h1 : ∀ c, s.head? = some c → isSpaceChar c = false)
    (h2 : ∀ c, s.getLast? = some c → isSpaceChar c = false) :
    trimSpace s = s := by
  unfold trimSpace trimLeft trimRight
  rw [dropWhile_space_eq_self s h1]
  rw [dropWhile_space_eq_self s.reverse
    (fun c hc => h2 c (by rwa [List.head?_reverse] at hc))]
  exact List.reverse_reverse s

theorem mem_of_head?_eq {a : Char} {l : Str} (h : l.head? = some a) : a ∈ l := by
  cases l with
  | nil => exact Option.noConfusion h
  | cons x xs =>
    obtain rfl := Option.some.inj h
    exact List.mem_cons_self x xs

theorem mem_of_getLast?_eq {a : Char} {l : Str} (h : l.getLast? = some a) : a ∈ l := by
  rw [← List.head?_reverse] at h
  exact List.mem_reverse.mp (mem_of_head?_eq h)

theorem trimSpace_eq_self_of_all (s : Str) (h : ∀ c ∈ s, isSpaceChar c = false) :
    trimSpace s = s :=
  trimSpace_eq_self s (fun c hc => h c (mem_of_head?_eq hc))
    (fun c hc => h c (mem_of_getLast?_eq hc))

theorem splitEq_append (k w : Str) (hk : ∀ c ∈ k, (c == '=') = false) :
    splitEq (k ++ '=' :: w) = some (k, w) := by
  induction k with
  | nil => simp [splitEq]
  | cons c k0 ih =>
    have hne : c ≠ '=' := by simpa using hk c (List.mem_cons_self c k0)
    rw [List.cons_append]
    simp only [splitEq, if_neg hne,
      ih (fun c2 hc2 => hk c2 (List.mem_cons_of_mem c hc2))]

theorem stripQuotes_wrap (v : Str) :
    stripQuotes (dquote :: (v ++ [dquote])) = v := by
  unfold stripQuotes
  rw [if_pos ?cond]
  · show ((dquote :: (v ++ [dquote])).drop 1).dropLast = v
    rw [List.drop_one, List.tail_cons, List.dropLast_concat]
  case cond =>
    refine ⟨by simp, Or.inl ⟨rfl, ?_⟩⟩
    rw [show dquote :: (v ++ [dquote]) = (dquote :: v) ++ [dquote] from rfl,
      List.getLast?_concat]

theorem stripQuotes_eq_self (v : Str)
    (h : ¬(2 ≤ v.length ∧
        ((v.head? = some dquote ∧ v.getLast? = some dquote) ∨
         (v.head? = some squote ∧ v.getLast? = some squote)))) :
    stripQuotes v = v := by
  unfold stripQuotes
  rw [if_neg h]

theorem value_roundtrip {v : Str} (hv : validValueB v = true) :
    stripQuotes (trimSpace (quoteValue v)) = v := by
  cases hq : needsQuote v with
  | true =>
    rw [show quoteValue v = dquote :: (v ++ [dquote]) by simp [quoteValue, hq]]
    rw [trimSpace_eq_self _ ?h1 ?h2]
    · exact stripQuotes_wrap v
    case h1 =>
      intro c hc
      obtain rfl := Option.some.inj hc
      decide
    case h2 =>
      intro c hc
      rw [show dquote :: (v ++ [dquote]) = (dquote :: v) ++ [dquote] from rfl,
        List.getLast?_concat] at hc
      obtain rfl := Option.some.inj hc
      decide
  | false =>
    obtain ⟨ha, hb, hc⟩ := validValue_bare hv hq
    rw [show quoteValue v = v by simp [quoteValue, hq]]
    rw [trimSpace_eq_self v ha hb]
    exact stripQuotes_eq_self v hc

theorem trim_envLine {k v : Str} (hk : validKeyB k = true) (hv : validValueB v = true) :
    trimSpace (envLine k v) = envLine k v := by
  obtain ⟨hne, hall, hhash⟩ := validKey_parts hk
  apply trimSpace_eq_self
  · intro c hc
    cases k with
    | nil => exact absurd rfl hne
    | cons c0 k0 =>
      have h0 : (envLine (c0 :: k0) v).head? = some c0 := rfl
      rw [h0] at hc
      obtain rfl := Option.some.inj hc
      exact (hall c0 (List.mem_cons_self _ _)).1
  · intro c hc
    rw [show envLine k v = k ++ '=' :: quoteValue v from rfl,
      List.getLast?_append_cons] at hc
    cases hqv : quoteValue v with
    | nil =>
      rw [hqv] at hc
      obtain rfl := Option.some.inj hc
      decide
    | cons q qs =>
      rw [hqv, List.getLast?_cons_cons, ← hqv] at hc
      cases hq : needsQuote v with
      | true =>
        rw [show quoteValue v = dquote :: (v ++ [dquote]) by simp [quoteValue, hq],
          show dquote :: (v ++ [dquote]) = (dquote :: v) ++ [dquote] from rfl,
          List.getLast?_concat] at hc
        obtain rfl := Option.some.inj hc
        decide
      | false =>
        rw [show quoteValue v = v by simp [quoteValue, hq]] at hc
        exact (validValue_bare hv hq).2.1 c hc

theorem nl_not_mem_envLine {k v : Str} (hk : validKeyB k = true)
    (hv : validValueB v = true) : '\n' ∉ envLine k v := by
  obtain ⟨_, hall, _⟩ := validKey_parts hk
  have hnl : '\n' ∉ v := validValue_no_nl hv
  intro hmem
  rcases List.mem_append.mp hmem with h1 | h1
  · exact absurd (hall _ h1).1 (by decide)
  · rcases List.mem_cons.mp h1 with h2 | h2
    · exact absurd h2 (by decide)
    · cases hq : needsQuote v with
      | true =>
        rw [show quoteValue v = dquote :: (v ++ [dquote]) by simp [quoteValue, hq]] at h2
        rcases List.mem_cons.mp h2 with h3 | h3
        · exact absurd h3 (by decide)
        · rcases List.mem_append.mp h3 with h4 | h4
          · exact hnl h4
          · rcases List.mem_cons.mp h4 with h5 | h5
            · exact absurd h5 (by decide)
            · exact List.not_mem_nil _ h5
      | false =>
        rw [show quoteValue v = v by simp [quoteValue, hq]] at h2
        exact hnl h2

theorem parse_envLine_step {k v : Str} (hk : validKeyB k = true) (hv : validValueB v = true)
    (i : Nat) (rest : List Str) (env : EnvMap) :
    parseLinesAux i (envLine k v :: rest) env =
      parseLinesAux (i + 1) rest (envInsert k v env) := by
  obtain ⟨hne, hall, hhash⟩ := validKey_parts hk
  have htr : trimSpace (envLine k v) = envLine k v := trim_envLine hk hv
  have hsp : splitEq (envLine k v) = some (k, quoteValue v) :=
    splitEq_append k (quoteValue v) (fun c hc => (hall c hc).2)
  have hcond : ¬(envLine k v = [] ∨ (envLine k v).head? = some '#') := by
    rintro (h1 | h1)
    · cases k with
      | nil => exact hne rfl
      | cons c0 k0 => exact List.noConfusion h1
    · cases k with
      | nil => exact hne rfl
      | cons c0 k0 =>
        have h0 : (envLine (c0 :: k0) v).head? = some c0 := rfl
        rw [h0] at h1
        obtain rfl := Option.some.inj h1
        exact hhash rfl
  simp only [parseLinesAux, htr]
  rw [if_neg hcond]
  simp only [hsp]
  rw [trimSpace_eq_self_of_all k (fun c hc => (hall c hc).1), value_roundtrip hv]

theorem envInsert_append {k v : Str} :
    ∀ {env : EnvMap}, (∀ kv ∈ env, kv.1 < k) → envInsert k v env = env ++ [(k, v)]
  | [], _ => rfl
  | (k2, v2) :: rest, h => by
    have hk2 : k2 < k := h (k2, v2) (List.mem_cons_self _ _)
    simp only [envInsert]
    rw [if_neg (lt_asymm hk2), if_neg hk2.ne']
    rw [List.cons_append, envInsert_append (fun kv hkv => h kv (List.mem_cons_of_mem _ hkv))]

theorem splitOnChar_ne_nil (sep : Char) (s : Str) : splitOnChar sep s ≠ [] := by
  cases s with
  | nil => simp [splitOnChar]
  | cons c rest =>
    simp only [splitOnChar]
    cases h : splitOnChar sep rest with
    | nil => simp
    | cons l ls =>
      split_ifs <;> simp

theorem splitOnChar_cons_self (sep : Char) (s : Str) :
    splitOnChar sep (sep :: s) = [] :: splitOnChar sep s := by
  obtain ⟨l, ls, hls⟩ : ∃ l ls, splitOnChar sep s = l :: ls := by
    cases h : splitOnChar sep s with
    | nil => exact absurd h (splitOnChar_ne_nil sep s)
    | cons l ls => exact ⟨l, ls, rfl⟩
  simp only [splitOnChar, hls]
  simp

theorem splitOnChar_cons_ne (sep c : Char) (s : Str) (hc : c ≠ sep) {l : Str}
    {ls : List Str} (hs : splitOnChar sep s = l :: ls) :
    splitOnChar sep (c :: s) = (c :: l) :: ls := by
  simp only [splitOnChar, hs]
  rw [if_neg hc]

theorem splitOnChar_append (sep : Char) (l s : Str) (hl : sep ∉ l) :
    splitOnChar sep (l ++ sep :: s) = l :: splitOnChar sep s := by
  induction l with
  | nil => exact splitOnChar_cons_self sep s
  | cons c l0 ih =>
    have hc : c ≠ sep := fun he => hl (he ▸ List.mem_cons_self c l0)
    have ih2 := ih (fun hm => hl (List.mem_cons_of_mem c hm))
    rw [List.cons_append]
    exact splitOnChar_cons_ne sep c (l0 ++ sep :: s) hc ih2

theorem splitOnChar_joinNl : ∀ (ls : List Str), ls ≠ [] → (∀ l ∈ ls, '\n' ∉ l) →
    splitOnChar '\n' (joinNl ls ++ ['\n']) = ls ++ [[]]
  | [], h, _ => absurd rfl h
  | [l], _, hn => by
    simp only [joinNl]
    rw [show l ++ ['\n'] = l ++ '\n' :: [] from rfl,
      splitOnChar_append '\n' l [] (hn l (List.mem_cons_self _ _))]
    rfl
  | l :: l2 :: ls, _, hn => by
    simp only [joinNl]
    rw [List.append_assoc,
      show ('\n' :: joinNl (l2 :: ls)) ++ ['\n'] = '\n' :: (joinNl (l2 :: ls) ++ ['\n'])
        from rfl,
      splitOnChar_append '\n' l _ (hn l (List.mem_cons_self _ _)),
      splitOnChar_joinNl (l2 :: ls) (by simp)
        (fun x hx => hn x (List.mem_cons_of_mem _ hx))]
    rfl

theorem parseLinesAux_envLines : ∀ (m env : EnvMap) (i : Nat),
    (∀ kv ∈ m, validKeyB kv.1 = true ∧ validValueB kv.2 = true) →
    List.Pairwise (fun a b : Str × Str => a.1 < b.1) (env ++ m) →
    parseLinesAux i (m.map (fun kv => envLine kv.1 kv.2) ++ [[]]) env = .ok (env ++ m)
  | [], env, i, _, _ => by
    simp only [List.map_nil, List.nil_append, List.append_nil]
    simp [parseLinesAux, trimSpace, trimLeft, trimRight]
  | (k, v) :: m0, env, i, hval, hwf => by
    obtain ⟨hk, hv⟩ := hval (k, v) (List.mem_cons_self _ _)
    simp only [List.map_cons, List.cons_append]
    rw [parse_envLine_step hk hv]
    have hlt : ∀ kv ∈ env, kv.1 < k := by
      intro kv hkv
      exact (List.pairwise_append.mp hwf).2.2 kv hkv (k, v) (List.mem_cons_self _ _)
    rw [envInsert_append hlt]
    have hwf2 : List.Pairwise (fun a b : Str × Str => a.1 < b.1) ((env ++ [(k, v)]) ++ m0) := by
      rw [List.append_assoc]
      exact hwf
    rw [parseLinesAux_envLines m0 (env ++ [(k, v)]) (i + 1)
      (fun kv hkv => hval kv (List.mem_cons_of_mem _ hkv)) hwf2]
    rw [List.append_assoc]
    rfl

theorem generateEnvContent_eq {m : EnvMap} (hwf : envWF m) :
    generateEnvContent m = joinNl (m.map fun kv => envLine kv.1 kv.2) ++ ['\n'] := by
  have hsorted : List.Sorted (· ≤ ·) (envKeys m) :=
    List.pairwise_map.mpr (hwf.imp (fun h => le_of_lt h))
  have hmap : ((envKeys m).insertionSort (· ≤ ·)).map
      (fun k => envLine k ((envLookup k m).getD [])) =
      m.map (fun kv => envLine kv.1 kv.2) := by
    rw [List.Sorted.insertionSort_eq hsorted]
    unfold envKeys
    rw [List.map_map]
    apply List.map_congr_left
    intro kv hkv
    have hlk : envLookup kv.1 m = some kv.2 := (envLookup_iff_mem hwf).mpr hkv
    simp [Function.comp, hlk]
  show joinNl (((envKeys m).insertionSort (· ≤ ·)).map
      (fun k => envLine k ((envLookup k m).getD []))) ++ ['\n'] = _
  rw [hmap]

/-- C4 counterexample: mappings the claim allows (non-empty keys, values
without embedded newlines) on which the round trip fails: a key starting
with '#' is dropped as a comment, a key containing '=' is cut at the '=',
a key with leading whitespace is trimmed, and a bare value wrapped in
matching quotes loses its quotes. -/
theorem codec_roundtrip_fails_without_validity :
    parseEnvContent (generateEnvContent [("#A".toList, "v".toList)]) = .ok [] ∧
    ([] : EnvMap) ≠ [("#A".toList, "v".toList)] ∧
    parseEnvContent (generateEnvContent [("A=B".toList, "v".toList)]) =
      .ok [("A".toList, "B=v".toList)] ∧
    ([("A".toList, "B=v".toList)] : EnvMap) ≠ [("A=B".toList, "v".toList)] ∧
    parseEnvContent (generateEnvContent [(" A".toList, "v".toList)]) =
      .ok [("A".toList, "v".toList)] ∧
    ([("A".toList, "v".toList)] : EnvMap) ≠ [(" A".toList, "v".toList)] ∧
    parseEnvContent (generateEnvContent [("K".toList, [dquote, 'x', dquote])]) =
      .ok [("K".toList, "x".toList)] ∧
    ("x".toList : Str) ≠ [dquote, 'x', dquote] :=
  ⟨by decide, by decide, by decide, by decide, by decide, by decide, by decide, by decide⟩

/-- C4 amended: parse is a left inverse of serialize for every
well-formed mapping whose keys are non-empty, contain no whitespace and no
'=' and do not start with '#', and whose values contain no newline and,
when emitted unquoted, neither begin nor end with whitespace nor look like
a quoted literal; for such mappings serialize also never produces a line
that parse rejects, since parsing the whole output succeeds. -/
theorem parse_generate_roundtrip (m : EnvMap) (hwf : envWF m)
    (hval : ∀ kv ∈ m, validKeyB kv.1 = true ∧ validValueB kv.2 = true) :
    parseEnvContent (generateEnvContent m) = .ok m := by
  cases m with
  | nil => decide
  | cons kv0 m0 =>
    rw [generateEnvContent_eq hwf]
    unfold parseEnvContent
    rw [splitOnChar_joinNl ((kv0 :: m0).map fun kv => envLine kv.1 kv.2)
      (by simp) ?hnl]
    · simpa using parseLinesAux_envLines (kv0 :: m0) [] 0 hval hwf
    case hnl =>
      intro l hl
      rw [List.mem_map] at hl
      obtain ⟨kv2, hkv2, rfl⟩ := hl
      exact nl_not_mem_envLine (hval kv2 hkv2).1 (hval kv2 hkv2).2

/-- Witness for C4 amended: the round trip evaluated on a concrete valid
mapping with a quoted and an unquoted value. -/
theorem parse_generate_roundtrip_witness :
    parseEnvContent (generateEnvContent
      [("A".toList, "1".toList), ("B".toList, "a b".toList)]) =
      .ok [("A".toList, "1".toList), ("B".toList, "a b".toList)] :=
  parse_generate_roundtrip [("A".toList, "1".toList), ("B".toList, "a b".toList)]
    (by decide) (by decide)

end EnvSync
